import Mathlib

/-!
# Dining philosophers (`src/main.cpp`)

A shallow embedding of the shared state of `src/main.cpp`, of the blocks its
philosopher threads run while holding `mtx`, and of the start-up code of
`main`, followed by the safety properties of the protocol.

Conventions of the embedding.

* `std::vector<T>` is a `List T`; `v[i] = x` is `List.set` and a read `v[i]`
  inside the code is `List.getD`.  Properties are stated with `v[i]?`, so
  that they also say the index is in range.
* Indices (`id`, fork numbers, `N` once validated) are `Nat`; C++ `%` on
  non-negative operands agrees with `Nat` remainder.
* `int` values (durations, elapsed counters, loop counters) are `Int`.  The
  increment of `actionElapsed[id]` is taken on 32 bits (`wrapInt`); the
  durations are drawn from `[2,5]` and `[1,3]` and the counters count up to
  them, so the increment never wraps on a reachable state.
* Every block of a philosopher that runs under `mtx` is one atomic step.
  `cv.wait(lock, pred)` is `while (!pred()) wait(lock);`: when the predicate
  already holds the lock is not released, so lines 62-79 are then a single
  step; when it does not hold the thread suspends, and it can only continue
  from a state where `canEat(id)` holds.  A wake-up that finds the predicate
  false re-suspends without writing to shared state, so it is not a step.
-/

namespace Philosophers

/-! ## Shared state (lines 10-37) -/

/-- Philosopher phase, `enum class State` (lines 11-15). -/
inductive State
  | THINKING
  | HUNGRY
  | EATING
  deriving DecidableEq

/-- The globals of lines 21-25. -/
structure Shared where
  N : Nat
  states : List State
  forks : List Bool
  actionDuration : List Int
  actionElapsed : List Int
  deriving DecidableEq

/-- Line 27-29. -/
def leftFork (i : Nat) : Nat := i

/-- Line 31-33: `(i + 1) % N`. -/
def rightFork (N i : Nat) : Nat := (i + 1) % N

/-- Line 35-37: `forks[leftFork(i)] && forks[rightFork(i)]`. -/
def canEat (s : Shared) (i : Nat) : Bool :=
  s.forks.getD (leftFork i) false && s.forks.getD (rightFork s.N i) false

/-! ## The blocks run under the lock (lines 45-96) -/

/-- Lines 49-53: enter the thinking phase with duration `t`. -/
def beginThinking (s : Shared) (id : Nat) (t : Int) : Shared :=
  { s with
    states := s.states.set id State.THINKING
    actionDuration := s.actionDuration.set id t
    actionElapsed := s.actionElapsed.set id 0 }

/-- A value brought back into the range of a 32-bit `int`, as two's
complement arithmetic does: `wrapInt 2147483648 = -2147483648`. -/
def wrapInt (x : Int) : Int := (x + 2147483648) % 4294967296 - 2147483648

/-- Lines 57-58 and 84-85: `actionElapsed[id]++` on a 32-bit `int`.  The
increment is unconditional: there is no test against `actionDuration[id]`. -/
def tick (s : Shared) (id : Nat) : Shared :=
  { s with
    actionElapsed := s.actionElapsed.set id (wrapInt (s.actionElapsed.getD id 0 + 1)) }

/-- Line 63: `states[id] = State::HUNGRY`. -/
def becomeHungry (s : Shared) (id : Nat) : Shared :=
  { s with states := s.states.set id State.HUNGRY }

/-- Lines 71-77: take both forks and enter the eating phase with duration `e`. -/
def takeForks (s : Shared) (id : Nat) (e : Int) : Shared :=
  { s with
    forks := (s.forks.set (leftFork id) false).set (rightFork s.N id) false
    states := s.states.set id State.EATING
    actionDuration := s.actionDuration.set id e
    actionElapsed := s.actionElapsed.set id 0 }

/-- Lines 90-92: put both forks back and return to `THINKING`. -/
def putForks (s : Shared) (id : Nat) : Shared :=
  { s with
    forks := (s.forks.set (leftFork id) true).set (rightFork s.N id) true
    states := s.states.set id State.THINKING }

/-- The `tick` block applied `k` times in a row by the same philosopher. -/
def tickN : Nat → Shared → Nat → Shared
  | 0, s, _ => s
  | k + 1, s, id => tickN k (tick s id) id

/-! ## Philosopher threads (lines 40-97) -/

/-- Where a philosopher thread stands whenever it does not hold `mtx`,
together with its live locals. -/
inductive PC
  /-- Top of the `while (true)` body, line 46. -/
  | start
  /-- In the loop of line 55 with bound `t` and counter `i`. -/
  | thinking (t i : Int)
  /-- Suspended inside `cv.wait`, line 66. -/
  | waiting
  /-- In the loop of line 82 with bound `e` and counter `i`. -/
  | eating (e i : Int)
  deriving DecidableEq

/-- Shared state plus the control state of the `N` philosopher threads. -/
structure Config where
  sh : Shared
  pcs : List PC
  deriving DecidableEq

/-- Range of `thinkTime`, line 42. -/
def thinkTime (t : Int) : Prop := 2 ≤ t ∧ t ≤ 5

/-- Range of `eatTime`, line 43. -/
def eatTime (e : Int) : Prop := 1 ≤ e ∧ e ≤ 3

instance (t : Int) : Decidable (thinkTime t) := by unfold thinkTime; infer_instance

instance (e : Int) : Decidable (eatTime e) := by unfold eatTime; infer_instance

/-- One atomic step of philosopher `id`; `t` and `e` are what `thinkTime(gen)`
and `eatTime(gen)` return if the step draws them.  `none` when the thread
does not exist or is suspended on a false predicate. -/
def step (c : Config) (id : Nat) (t e : Int) : Option Config :=
  if id < c.sh.N then
    match c.pcs[id]? with
    | none => none
    | some PC.start =>
      some ⟨beginThinking c.sh id t, c.pcs.set id (PC.thinking t 0)⟩
    | some (PC.thinking t0 i) =>
      if i < t0 then
        some ⟨tick c.sh id, c.pcs.set id (PC.thinking t0 (i + 1))⟩
      else if canEat (becomeHungry c.sh id) id then
        some ⟨takeForks (becomeHungry c.sh id) id e, c.pcs.set id (PC.eating e 0)⟩
      else
        some ⟨becomeHungry c.sh id, c.pcs.set id PC.waiting⟩
    | some PC.waiting =>
      if canEat c.sh id then
        some ⟨takeForks c.sh id e, c.pcs.set id (PC.eating e 0)⟩
      else
        none
    | some (PC.eating e0 i) =>
      if i < e0 then
        some ⟨tick c.sh id, c.pcs.set id (PC.eating e0 (i + 1))⟩
      else
        some ⟨putForks c.sh id, c.pcs.set id PC.start⟩
  else
    none

/-! ## Start-up (lines 156-172) -/

/-- `std::vector::resize(n, v)`. -/
def resize {α : Type} (xs : List α) (n : Nat) (v : α) : List α :=
  if n ≤ xs.length then xs.take n else xs ++ List.replicate (n - xs.length) v

/-- Lines 169-172 applied to the empty global vectors. -/
def initShared (N : Nat) : Shared :=
  { N := N
    states := resize [] N State.THINKING
    forks := resize [] N true
    actionDuration := resize [] N 0
    actionElapsed := resize [] N 0 }

/-- State when the philosopher threads are created (lines 184-187). -/
def initConfig (N : Nat) : Config :=
  ⟨initShared N, List.replicate N PC.start⟩

/-- States the philosophers can bring about from the initial one. -/
inductive Reachable (N : Nat) : Config → Prop
  | init : Reachable N (initConfig N)
  | step {c c1 : Config} (id : Nat) (t e : Int) :
      Reachable N c → thinkTime t → eatTime e → step c id t e = some c1 → Reachable N c1

/-! ### Argument parsing -/

/-- The exceptions `std::stoi` throws. -/
inductive StoiError
  | invalid_argument
  | out_of_range
  deriving DecidableEq

/-- Result of a call of `std::stoi`. -/
inductive Parsed
  | value (n : Int)
  | throws (err : StoiError)
  deriving DecidableEq

/-- `isspace` in the "C" locale: space and the controls `\t \n \v \f \r`. -/
def isSpace (c : Char) : Bool :=
  c.toNat = 32 || (9 ≤ c.toNat && c.toNat ≤ 13)

/-- Leading white space is skipped by `strtol`. -/
def skipSpace : List Char → List Char
  | [] => []
  | c :: cs => if isSpace c then skipSpace cs else c :: cs

/-- Value of the longest run of decimal digits at the head of the input. -/
def digitsValue : List Char → Nat → Nat
  | [], acc => acc
  | c :: cs, acc => if c.isDigit then digitsValue cs (10 * acc + (c.toNat - 48)) else acc

/-- Whether the input starts with a decimal digit. -/
def hasDigit : List Char → Bool
  | [] => false
  | c :: _ => c.isDigit

/-- Digits after the optional sign: no digit is `invalid_argument`, a value
outside `int` is `out_of_range`, trailing characters are ignored. -/
def stoiDigits (negative : Bool) (ds : List Char) : Parsed :=
  if hasDigit ds then
    if negative then
      if digitsValue ds 0 ≤ 2147483648 then Parsed.value (-(digitsValue ds 0 : Int))
      else Parsed.throws StoiError.out_of_range
    else
      if digitsValue ds 0 ≤ 2147483647 then Parsed.value (digitsValue ds 0 : Int)
      else Parsed.throws StoiError.out_of_range
  else
    Parsed.throws StoiError.invalid_argument

/-- The library call `std::stoi(str)` of line 162 (base 10, 32-bit `int`):
white space, an optional sign, then decimal digits. -/
def stoi (str : String) : Parsed :=
  match skipSpace str.toList with
  | '-' :: ds => stoiDigits true ds
  | '+' :: ds => stoiDigits false ds
  | ds => stoiDigits false ds

/-- How `main` leaves its start-up code. -/
inductive Outcome
  /-- A message went to `std::cerr` and `main` returned `status`. -/
  | returned (status : Int) (cerr : String)
  /-- An exception left `main`: `std::terminate`, no `return`. -/
  | uncaught (err : StoiError)
  /-- The vectors are sized and the philosopher threads run. -/
  | started (c : Config)
  deriving DecidableEq

/-- Lines 156-187 of `main`; `argv` includes the program name, `argc` is its
length. -/
def main (argv : List String) : Outcome :=
  if argv.length < 2 then
    Outcome.returned 1 "Podaj liczbe filozofow (>= 5)\n"
  else
    match stoi (argv.getD 1 "") with
    | Parsed.throws err => Outcome.uncaught err
    | Parsed.value n =>
      if n < 5 then
        Outcome.returned 1 "Liczba filozofow musi byc >= 5\n"
      else
        Outcome.started (initConfig n.toNat)

/-! ## The inductive invariant -/

/-- Index of the philosopher whose right fork is `r`. -/
def leftNeighbour (N r : Nat) : Nat := (r + N - 1) % N

/-- What the shared state records about philosopher `i` at each program
point. -/
def PhaseOK (s : Shared) (i : Nat) : PC → Prop
  | PC.start =>
      s.states[i]? = some State.THINKING ∧
      ∃ el, s.actionElapsed[i]? = some el ∧ s.actionDuration[i]? = some el ∧ 0 ≤ el
  | PC.thinking t k =>
      s.states[i]? = some State.THINKING ∧
      s.actionElapsed[i]? = some k ∧ s.actionDuration[i]? = some t ∧
      0 ≤ k ∧ k ≤ t ∧ t ≤ 5
  | PC.waiting =>
      s.states[i]? = some State.HUNGRY ∧
      ∃ el, s.actionElapsed[i]? = some el ∧ s.actionDuration[i]? = some el ∧ 0 ≤ el
  | PC.eating e k =>
      s.states[i]? = some State.EATING ∧
      s.actionElapsed[i]? = some k ∧ s.actionDuration[i]? = some e ∧
      0 ≤ k ∧ k ≤ e ∧ e ≤ 5

/-- Invariant of the protocol for `N` philosophers. -/
structure Inv (N : Nat) (c : Config) : Prop where
  hN : c.sh.N = N
  lenS : c.sh.states.length = N
  lenF : c.sh.forks.length = N
  lenD : c.sh.actionDuration.length = N
  lenE : c.sh.actionElapsed.length = N
  lenP : c.pcs.length = N
  phase : ∀ i pc, c.pcs[i]? = some pc → PhaseOK c.sh i pc
  held : ∀ r, r < N →
    (c.sh.forks[r]? = some true ↔
      c.sh.states[r]? ≠ some State.EATING ∧
      c.sh.states[leftNeighbour N r]? ≠ some State.EATING)
  excl : ∀ i, i < N →
    ¬ (c.sh.states[i]? = some State.EATING ∧
       c.sh.states[rightFork N i]? = some State.EATING)

/-! ## Schedules -/

/-- One scheduling decision: the philosopher that moves and what its two
generators return if asked. -/
structure Move where
  id : Nat
  t : Int
  e : Int
  deriving DecidableEq

/-- Run a schedule; `none` if a draw is outside its distribution or the
chosen philosopher cannot move. -/
def run (c : Config) : List Move → Option Config
  | [] => some c
  | m :: ms =>
    if thinkTime m.t ∧ eatTime m.e then
      match step c m.id m.t m.e with
      | none => none
      | some c1 => run c1 ms
    else
      none

/-- Philosopher `id` thinks for two ticks and then asks for its forks. -/
def thinkThenAsk (id : Nat) : List Move :=
  [⟨id, 2, 1⟩, ⟨id, 2, 1⟩, ⟨id, 2, 1⟩, ⟨id, 2, 1⟩]

/-- Philosopher `id`, eating for one tick, finishes and puts its forks back. -/
def eatThenPut (id : Nat) : List Move :=
  [⟨id, 2, 1⟩, ⟨id, 2, 1⟩]

/-- Five philosophers, philosopher 0 eating, the others not started yet. -/
def zeroEats : Config :=
  ⟨⟨5, [State.EATING, State.THINKING, State.THINKING, State.THINKING, State.THINKING],
      [false, false, true, true, true], [1, 0, 0, 0, 0], [0, 0, 0, 0, 0]⟩,
    [PC.eating 1 0, PC.start, PC.start, PC.start, PC.start]⟩

/-- Five philosophers, 1 and 2 hungry and suspended, every fork free: 0 and 3
ate while 1 and 2 asked, and have put their forks back. -/
def oneTwoHungry : Config :=
  ⟨⟨5, [State.THINKING, State.HUNGRY, State.HUNGRY, State.THINKING, State.THINKING],
      [true, true, true, true, true], [1, 2, 2, 1, 0], [1, 2, 2, 1, 0]⟩,
    [PC.start, PC.waiting, PC.waiting, PC.start, PC.start]⟩

/-- The schedule that leads to `oneTwoHungry`. -/
def oneTwoHungrySchedule : List Move :=
  thinkThenAsk 0 ++ thinkThenAsk 3 ++ thinkThenAsk 1 ++ thinkThenAsk 2 ++
    eatThenPut 0 ++ eatThenPut 3

/-! ## Runs in which one philosopher keeps its forks -/

/-- Whether the next step of philosopher `id` is the block of lines 89-93,
putting the forks back. -/
def isPut (c : Config) (id : Nat) : Bool :=
  match c.pcs[id]? with
  | some (PC.eating e0 k) => decide (¬ k < e0)
  | _ => false

/-- Runs from a state in which philosopher `a` never performs its
put-forks-back step; everything else may happen. -/
inductive RunsBeforePut (a : Nat) : Config → Config → Prop
  | refl (c : Config) : RunsBeforePut a c c
  | step {c c1 c2 : Config} (id : Nat) (t e : Int) :
      RunsBeforePut a c c1 → thinkTime t → eatTime e →
      ¬ (id = a ∧ isPut c1 a = true) → step c1 id t e = some c2 → RunsBeforePut a c c2

/-! ## Arithmetic on the ring of indices -/

theorem rightFork_lt {N : Nat} (h : 0 < N) (i : Nat) : rightFork N i < N :=
  Nat.mod_lt _ h

theorem rightFork_eq {N i : Nat} (hi : i < N) :
    rightFork N i = if i + 1 = N then 0 else i + 1 := by
  unfold rightFork
  split
  · next h => rw [h, Nat.mod_self]
  · next h => exact Nat.mod_eq_of_lt (by omega)

theorem leftNeighbour_eq {N r : Nat} (hr : r < N) :
    leftNeighbour N r = if r = 0 then N - 1 else r - 1 := by
  unfold leftNeighbour
  split
  · next h => subst h; simp
  · next h =>
    have : r + N - 1 = (r - 1) + N := by omega
    rw [this, Nat.add_mod_right]
    exact Nat.mod_eq_of_lt (by omega)

theorem leftNeighbour_lt {N : Nat} (h : 0 < N) (r : Nat) : leftNeighbour N r < N :=
  Nat.mod_lt _ h

theorem rightFork_ne {N i : Nat} (h2 : 2 ≤ N) (hi : i < N) : rightFork N i ≠ i := by
  rw [rightFork_eq hi]; split <;> omega

theorem leftNeighbour_ne {N r : Nat} (h2 : 2 ≤ N) (hr : r < N) : leftNeighbour N r ≠ r := by
  rw [leftNeighbour_eq hr]; split <;> omega

theorem leftNeighbour_rightFork {N i : Nat} (h2 : 2 ≤ N) (hi : i < N) :
    leftNeighbour N (rightFork N i) = i := by
  rw [leftNeighbour_eq (rightFork_lt (by omega) i), rightFork_eq hi]
  split <;> split <;> omega

theorem leftNeighbour_eq_iff {N r i : Nat} (h2 : 2 ≤ N) (hr : r < N) (hi : i < N) :
    leftNeighbour N r = i ↔ r = rightFork N i := by
  rw [leftNeighbour_eq hr, rightFork_eq hi]
  split <;> split <;> omega

theorem rightFork_leftNeighbour {N r : Nat} (h2 : 2 ≤ N) (hr : r < N) :
    rightFork N (leftNeighbour N r) = r := by
  rw [rightFork_eq (leftNeighbour_lt (by omega) r), leftNeighbour_eq hr]
  split <;> split <;> omega

/-! ## Reading the vectors -/

theorem getD_false_eq_true (o : Option Bool) : o.getD false = true ↔ o = some true := by
  cases o <;> simp

theorem wrapInt_eq {x : Int} (h1 : -2147483648 ≤ x) (h3 : x ≤ 2147483647) : wrapInt x = x := by
  unfold wrapInt
  omega

theorem canEat_iff (s : Shared) (i : Nat) :
    canEat s i = true ↔ s.forks[i]? = some true ∧ s.forks[rightFork s.N i]? = some true := by
  simp [canEat, leftFork, getD_false_eq_true]

theorem PhaseOK_congr {s s1 : Shared} {i : Nat} {pc : PC}
    (hs : s1.states[i]? = s.states[i]?)
    (he : s1.actionElapsed[i]? = s.actionElapsed[i]?)
    (hd : s1.actionDuration[i]? = s.actionDuration[i]?)
    (h : PhaseOK s i pc) : PhaseOK s1 i pc := by
  cases pc <;> simp only [PhaseOK, hs, he, hd] at * <;> exact h

theorem phase_update {c : Config} {s1 : Shared} {id : Nat} {pc1 : PC}
    (hph : ∀ i pc, c.pcs[i]? = some pc → PhaseOK c.sh i pc)
    (hid : id < c.pcs.length)
    (hnew : PhaseOK s1 id pc1)
    (hs : ∀ i, i ≠ id → s1.states[i]? = c.sh.states[i]?)
    (he : ∀ i, i ≠ id → s1.actionElapsed[i]? = c.sh.actionElapsed[i]?)
    (hd : ∀ i, i ≠ id → s1.actionDuration[i]? = c.sh.actionDuration[i]?) :
    ∀ i pc, (c.pcs.set id pc1)[i]? = some pc → PhaseOK s1 i pc := by
  intro i pc h
  by_cases hi : i = id
  · subst hi
    rw [List.getElem?_set_self hid] at h
    cases h
    exact hnew
  · rw [List.getElem?_set_ne (Ne.symm hi)] at h
    exact PhaseOK_congr (hs i hi) (he i hi) (hd i hi) (hph i pc h)

/-! ## Preservation of the invariant -/

/-- A block that leaves the forks alone and does not change who is eating
keeps the invariant. -/
theorem inv_of_same_eaters {N : Nat} {c : Config} {s1 : Shared} {id : Nat} {pc1 : PC}
    (hinv : Inv N c) (hid : id < N)
    (hN : s1.N = c.sh.N) (hf : s1.forks = c.sh.forks)
    (hlS : s1.states.length = c.sh.states.length)
    (hlD : s1.actionDuration.length = c.sh.actionDuration.length)
    (hlE : s1.actionElapsed.length = c.sh.actionElapsed.length)
    (hnew : PhaseOK s1 id pc1)
    (hs : ∀ i, i ≠ id → s1.states[i]? = c.sh.states[i]?)
    (he : ∀ i, i ≠ id → s1.actionElapsed[i]? = c.sh.actionElapsed[i]?)
    (hd : ∀ i, i ≠ id → s1.actionDuration[i]? = c.sh.actionDuration[i]?)
    (heat : s1.states[id]? = some State.EATING ↔ c.sh.states[id]? = some State.EATING) :
    Inv N ⟨s1, c.pcs.set id pc1⟩ := by
  have hall : ∀ r : Nat,
      s1.states[r]? = some State.EATING ↔ c.sh.states[r]? = some State.EATING := by
    intro r
    by_cases hr : r = id
    · subst hr; exact heat
    · rw [hs r hr]
  refine ⟨hN.trans hinv.hN, hlS.trans hinv.lenS, ?_, hlD.trans hinv.lenD, hlE.trans hinv.lenE,
    ?_, ?_, ?_, ?_⟩
  · show s1.forks.length = N
    rw [hf]; exact hinv.lenF
  · show (c.pcs.set id pc1).length = N
    rw [List.length_set]; exact hinv.lenP
  · exact phase_update hinv.phase (by rw [hinv.lenP]; exact hid) hnew hs he hd
  · intro r hr
    have h := hinv.held r hr
    simp only [ne_eq] at h ⊢
    rw [hf, hall, hall]
    exact h
  · intro i hi
    have h := hinv.excl i hi
    simp only at h ⊢
    rw [hall, hall]
    exact h

theorem tick_elapsed {s : Shared} {id : Nat} {k : Int}
    (hel : s.actionElapsed[id]? = some k) (h0 : 0 ≤ k) (h1 : k < 2147483647) :
    (tick s id).actionElapsed = s.actionElapsed.set id (k + 1) := by
  have hg : s.actionElapsed.getD id 0 = k := by
    rw [List.getD_eq_getElem?_getD, hel]; rfl
  simp only [tick]
  rw [hg, wrapInt_eq (by omega) (by omega)]

theorem inv_beginThinking {N : Nat} {c : Config} {id : Nat} {t : Int}
    (hinv : Inv N c) (hid : id < N) (hpc : c.pcs[id]? = some PC.start) (ht : thinkTime t) :
    Inv N ⟨beginThinking c.sh id t, c.pcs.set id (PC.thinking t 0)⟩ := by
  have hp := hinv.phase id _ hpc
  unfold thinkTime at ht
  simp only [PhaseOK] at hp
  obtain ⟨hst, el, hel, hdu, h0⟩ := hp
  have hlS : id < c.sh.states.length := by rw [hinv.lenS]; exact hid
  have hlD : id < c.sh.actionDuration.length := by rw [hinv.lenD]; exact hid
  have hlE : id < c.sh.actionElapsed.length := by rw [hinv.lenE]; exact hid
  apply inv_of_same_eaters hinv hid
  · rfl
  · rfl
  · simp [beginThinking]
  · simp [beginThinking]
  · simp [beginThinking]
  · simp only [PhaseOK, beginThinking]
    exact ⟨List.getElem?_set_self hlS, List.getElem?_set_self hlE,
      List.getElem?_set_self hlD, le_refl 0, by omega, ht.2⟩
  · intro i hi; exact List.getElem?_set_ne (Ne.symm hi)
  · intro i hi; exact List.getElem?_set_ne (Ne.symm hi)
  · intro i hi; exact List.getElem?_set_ne (Ne.symm hi)
  · simp only [beginThinking]
    rw [List.getElem?_set_self hlS, hst]

theorem inv_tick_thinking {N : Nat} {c : Config} {id : Nat} {t k : Int}
    (hinv : Inv N c) (hid : id < N) (hpc : c.pcs[id]? = some (PC.thinking t k)) (hk : k < t) :
    Inv N ⟨tick c.sh id, c.pcs.set id (PC.thinking t (k + 1))⟩ := by
  have hp := hinv.phase id _ hpc
  simp only [PhaseOK] at hp
  obtain ⟨hst, hel, hdu, h0, hkt, ht5⟩ := hp
  have hlE : id < c.sh.actionElapsed.length := by rw [hinv.lenE]; exact hid
  have htick := tick_elapsed hel h0 (by omega)
  apply inv_of_same_eaters hinv hid
  · rfl
  · rfl
  · rfl
  · rfl
  · rw [htick]; simp
  · simp only [PhaseOK]
    rw [htick]
    exact ⟨hst, List.getElem?_set_self hlE, hdu, by omega, by omega, ht5⟩
  · intro i hi; rfl
  · intro i hi; rw [htick]; exact List.getElem?_set_ne (Ne.symm hi)
  · intro i hi; rfl
  · exact Iff.rfl

theorem inv_tick_eating {N : Nat} {c : Config} {id : Nat} {e k : Int}
    (hinv : Inv N c) (hid : id < N) (hpc : c.pcs[id]? = some (PC.eating e k)) (hk : k < e) :
    Inv N ⟨tick c.sh id, c.pcs.set id (PC.eating e (k + 1))⟩ := by
  have hp := hinv.phase id _ hpc
  simp only [PhaseOK] at hp
  obtain ⟨hst, hel, hdu, h0, hke, he5⟩ := hp
  have hlE : id < c.sh.actionElapsed.length := by rw [hinv.lenE]; exact hid
  have htick := tick_elapsed hel h0 (by omega)
  apply inv_of_same_eaters hinv hid
  · rfl
  · rfl
  · rfl
  · rfl
  · rw [htick]; simp
  · simp only [PhaseOK]
    rw [htick]
    exact ⟨hst, List.getElem?_set_self hlE, hdu, by omega, by omega, he5⟩
  · intro i hi; rfl
  · intro i hi; rw [htick]; exact List.getElem?_set_ne (Ne.symm hi)
  · intro i hi; rfl
  · exact Iff.rfl

theorem inv_becomeHungry {N : Nat} {c : Config} {id : Nat} {t k : Int}
    (hinv : Inv N c) (hid : id < N) (hpc : c.pcs[id]? = some (PC.thinking t k))
    (hk : ¬ k < t) :
    Inv N ⟨becomeHungry c.sh id, c.pcs.set id PC.waiting⟩ := by
  have hp := hinv.phase id _ hpc
  simp only [PhaseOK] at hp
  obtain ⟨hst, hel, hdu, h0, hkt, _⟩ := hp
  have hlS : id < c.sh.states.length := by rw [hinv.lenS]; exact hid
  have hkeq : k = t := by omega
  apply inv_of_same_eaters hinv hid
  · rfl
  · rfl
  · simp [becomeHungry]
  · rfl
  · rfl
  · simp only [PhaseOK, becomeHungry]
    refine ⟨List.getElem?_set_self hlS, k, hel, ?_, h0⟩
    rw [hdu, hkeq]
  · intro i hi; exact List.getElem?_set_ne (Ne.symm hi)
  · intro i hi; rfl
  · intro i hi; rfl
  · simp only [becomeHungry]
    rw [List.getElem?_set_self hlS, hst]
    simp

theorem inv_takeForks {N : Nat} {c : Config} {id : Nat} {e : Int}
    (h2 : 2 ≤ N) (hinv : Inv N c) (hid : id < N) (hpc : c.pcs[id]? = some PC.waiting)
    (hcan : canEat c.sh id = true) (he : eatTime e) :
    Inv N ⟨takeForks c.sh id e, c.pcs.set id (PC.eating e 0)⟩ := by
  have hp := hinv.phase id _ hpc
  unfold eatTime at he
  obtain ⟨hS, hF, hD, hE, hP, hNN⟩ := And.intro hinv.lenS
    (And.intro hinv.lenF (And.intro hinv.lenD (And.intro hinv.lenE (And.intro hinv.lenP hinv.hN))))
  rw [canEat_iff, hNN] at hcan
  obtain ⟨hfl, hfr⟩ := hcan
  have hj : rightFork N id < N := rightFork_lt (by omega) id
  have hjne : rightFork N id ≠ id := rightFork_ne h2 hid
  have hlj : leftNeighbour N (rightFork N id) = id := leftNeighbour_rightFork h2 hid
  have hL := (hinv.held id hid).1 hfl
  have hR := (hinv.held (rightFork N id) hj).1 hfr
  refine ⟨hNN, ?_, ?_, ?_, ?_, ?_, ?_, ?_, ?_⟩
  · simp [takeForks, hS]
  · simp [takeForks, hF]
  · simp [takeForks, hD]
  · simp [takeForks, hE]
  · simp [hP]
  · apply phase_update hinv.phase (by rw [hP]; exact hid)
    · simp only [takeForks, PhaseOK]
      exact ⟨List.getElem?_set_self (by rw [hS]; exact hid),
        List.getElem?_set_self (by rw [hE]; exact hid),
        List.getElem?_set_self (by rw [hD]; exact hid), le_refl 0, by omega, by omega⟩
    · intro i hi; simp [takeForks, List.getElem?_set_ne (Ne.symm hi)]
    · intro i hi; simp [takeForks, List.getElem?_set_ne (Ne.symm hi)]
    · intro i hi; simp [takeForks, List.getElem?_set_ne (Ne.symm hi)]
  · intro r hr
    have hiff := leftNeighbour_eq_iff h2 hr hid
    have hheld := hinv.held r hr
    by_cases h1 : r = id
    · subst h1
      simp [takeForks, leftFork, hNN, List.getElem?_set, hS, hF, hid, hjne]
    · by_cases h3 : r = rightFork N id
      · subst h3
        simp [takeForks, leftFork, hNN, List.getElem?_set, hS, hF, hid, hlj, hj]
      · have h4 : leftNeighbour N r ≠ id := fun h => h3 (hiff.1 h)
        simp only [takeForks, leftFork, hNN, ne_eq]
        rw [List.getElem?_set_ne (Ne.symm h3), List.getElem?_set_ne (Ne.symm h1),
          List.getElem?_set_ne (Ne.symm h1), List.getElem?_set_ne (Ne.symm h4)]
        exact hheld
  · intro i hi hboth
    simp only [takeForks] at hboth
    by_cases h1 : i = id
    · subst h1
      rw [List.getElem?_set_ne (Ne.symm hjne)] at hboth
      exact hR.1 hboth.2
    · rw [List.getElem?_set_ne (Ne.symm h1)] at hboth
      by_cases h3 : rightFork N i = id
      · have : leftNeighbour N id = i := (leftNeighbour_eq_iff h2 hid hi).2 h3.symm
        rw [this] at hL
        exact hL.2 hboth.1
      · rw [List.getElem?_set_ne (Ne.symm h3)] at hboth
        exact hinv.excl i hi hboth

theorem inv_putForks {N : Nat} {c : Config} {id : Nat} {e k : Int}
    (h2 : 2 ≤ N) (hinv : Inv N c) (hid : id < N) (hpc : c.pcs[id]? = some (PC.eating e k))
    (hk : ¬ k < e) :
    Inv N ⟨putForks c.sh id, c.pcs.set id PC.start⟩ := by
  have hp := hinv.phase id _ hpc
  obtain ⟨hS, hF, hD, hE, hP, hNN⟩ := And.intro hinv.lenS
    (And.intro hinv.lenF (And.intro hinv.lenD (And.intro hinv.lenE (And.intro hinv.lenP hinv.hN))))
  have hj : rightFork N id < N := rightFork_lt (by omega) id
  have hjne : rightFork N id ≠ id := rightFork_ne h2 hid
  have hlj : leftNeighbour N (rightFork N id) = id := leftNeighbour_rightFork h2 hid
  have hln : leftNeighbour N id < N := leftNeighbour_lt (by omega) id
  have hlne : leftNeighbour N id ≠ id := leftNeighbour_ne h2 hid
  simp only [PhaseOK] at hp
  obtain ⟨hst, hel, hdu, h0, hke, _⟩ := hp
  have hkeq : k = e := by omega
  have hR : c.sh.states[rightFork N id]? ≠ some State.EATING :=
    fun h => hinv.excl id hid ⟨hst, h⟩
  have hL : c.sh.states[leftNeighbour N id]? ≠ some State.EATING := by
    intro h
    have := hinv.excl (leftNeighbour N id) hln
    rw [rightFork_leftNeighbour h2 hid] at this
    exact this ⟨h, hst⟩
  refine ⟨hNN, ?_, ?_, hD, hE, ?_, ?_, ?_, ?_⟩
  · simp [putForks, hS]
  · simp [putForks, hF]
  · simp [hP]
  · apply phase_update hinv.phase (by rw [hP]; exact hid)
    · simp only [PhaseOK, putForks]
      refine ⟨?_, k, hel, ?_, h0⟩
      · rw [List.getElem?_set_self (by rw [hS]; exact hid)]
      · rw [hdu, hkeq]
    · intro i hi; simp [putForks, List.getElem?_set_ne (Ne.symm hi)]
    · intro i hi; rfl
    · intro i hi; rfl
  · intro r hr
    have hiff := leftNeighbour_eq_iff h2 hr hid
    have hheld := hinv.held r hr
    by_cases h1 : r = id
    · subst h1
      simp [putForks, leftFork, hNN, List.getElem?_set, hS, hF, hr, hjne, hlne, hlne.symm, hL]
    · by_cases h3 : r = rightFork N id
      · subst h3
        simp [putForks, leftFork, hNN, List.getElem?_set, hS, hF, hid, hlj, hj, hjne.symm]
        simpa [hS, hj] using hR
      · have h4 : leftNeighbour N r ≠ id := fun h => h3 (hiff.1 h)
        simp only [putForks, leftFork, hNN, ne_eq]
        rw [List.getElem?_set_ne (Ne.symm h3), List.getElem?_set_ne (Ne.symm h1),
          List.getElem?_set_ne (Ne.symm h1), List.getElem?_set_ne (Ne.symm h4)]
        exact hheld
  · intro i hi hboth
    simp only [putForks] at hboth
    by_cases h1 : i = id
    · subst h1
      rw [List.getElem?_set_self (by rw [hS]; exact hi)] at hboth
      exact absurd hboth.1 (by simp)
    · rw [List.getElem?_set_ne (Ne.symm h1)] at hboth
      by_cases h3 : rightFork N i = id
      · rw [h3, List.getElem?_set_self (by rw [hS]; exact hid)] at hboth
        exact absurd hboth.2 (by simp)
      · rw [List.getElem?_set_ne (Ne.symm h3)] at hboth
        exact hinv.excl i hi hboth

theorem resize_nil {α : Type} (n : Nat) (v : α) : resize [] n v = List.replicate n v := by
  cases n <;> simp [resize]

theorem inv_init (N : Nat) : Inv N (initConfig N) := by
  refine ⟨rfl, ?_, ?_, ?_, ?_, ?_, ?_, ?_, ?_⟩
  · simp [initConfig, initShared, resize_nil]
  · simp [initConfig, initShared, resize_nil]
  · simp [initConfig, initShared, resize_nil]
  · simp [initConfig, initShared, resize_nil]
  · simp [initConfig]
  · intro i pc h
    simp only [initConfig, List.getElem?_replicate] at h
    split at h
    · next hi =>
      cases h
      simp [PhaseOK, initConfig, initShared, resize_nil, List.getElem?_replicate, hi]
    · cases h
  · intro r hr
    simp [initConfig, initShared, resize_nil, List.getElem?_replicate, hr]
  · intro i hi
    simp [initConfig, initShared, resize_nil, List.getElem?_replicate, hi]

theorem inv_step {N : Nat} {c c1 : Config} {id : Nat} {t e : Int}
    (h2 : 2 ≤ N) (hinv : Inv N c) (ht : thinkTime t) (he : eatTime e)
    (h : step c id t e = some c1) : Inv N c1 := by
  unfold step at h
  split at h
  · next hidN =>
    have hid : id < N := by rw [← hinv.hN]; exact hidN
    split at h
    · cases h
    · next hpc =>
      cases h
      exact inv_beginThinking hinv hid hpc ht
    · next t0 k hpc =>
      split at h
      · next hk => cases h; exact inv_tick_thinking hinv hid hpc hk
      · next hk =>
        split at h
        · next hcan =>
          cases h
          have hmid := inv_becomeHungry hinv hid hpc hk
          have hpc1 : (c.pcs.set id PC.waiting)[id]? = some PC.waiting :=
            List.getElem?_set_self (by rw [hinv.lenP]; exact hid)
          have := inv_takeForks h2 hmid hid hpc1 hcan he
          rw [List.set_set] at this
          exact this
        · cases h; exact inv_becomeHungry hinv hid hpc hk
    · next hpc =>
      split at h
      · next hcan => cases h; exact inv_takeForks h2 hinv hid hpc hcan he
      · cases h
    · next e0 k hpc =>
      split at h
      · next hk => cases h; exact inv_tick_eating hinv hid hpc hk
      · next hk => cases h; exact inv_putForks h2 hinv hid hpc hk
  · cases h

/-- Every reachable state satisfies the invariant. -/
theorem inv_of_reachable {N : Nat} (h2 : 2 ≤ N) {c : Config} (h : Reachable N c) : Inv N c := by
  induction h with
  | init => exact inv_init N
  | step id t e _ ht he hstep ih => exact inv_step h2 ih ht he hstep

/-! ## Schedules reach reachable states -/

theorem reachable_of_run {N : Nat} {c c1 : Config} (hc : Reachable N c) (ms : List Move)
    (h : run c ms = some c1) : Reachable N c1 := by
  induction ms generalizing c with
  | nil => simp only [run] at h; cases h; exact hc
  | cons m ms ih =>
    simp only [run] at h
    split at h
    · next hv =>
      split at h
      · cases h
      · next c2 hstep => exact ih (Reachable.step m.id m.t m.e hc hv.1 hv.2 hstep) h
    · cases h

theorem zeroEats_reachable : Reachable 5 zeroEats :=
  reachable_of_run Reachable.init (thinkThenAsk 0) (by decide)

theorem oneTwoHungry_reachable : Reachable 5 oneTwoHungry :=
  reachable_of_run Reachable.init oneTwoHungrySchedule (by decide)

/-! ## Safety of the protocol -/

/-- C1, mutual exclusion of neighbours: with at least five philosophers, no
reachable state has philosophers `i` and `(i + 1) % N` both `EATING`. -/
theorem neighbours_never_both_eating (N : Nat) (hN : 5 ≤ N) (c : Config)
    (hc : Reachable N c) (i : Nat) (hi : i < N) :
    ¬ (c.sh.states[i]? = some State.EATING ∧
       c.sh.states[(i + 1) % N]? = some State.EATING) :=
  (inv_of_reachable (by omega) hc).excl i hi

theorem neighbours_never_both_eating_witness :
    (5 ≤ 5 ∧ Reachable 5 zeroEats ∧ 0 < 5) ∧
    ¬ (zeroEats.sh.states[0]? = some State.EATING ∧
       zeroEats.sh.states[(0 + 1) % 5]? = some State.EATING) :=
  ⟨⟨by decide, zeroEats_reachable, by decide⟩,
    neighbours_never_both_eating 5 (by decide) zeroEats zeroEats_reachable 0 (by decide)⟩

/-- An eating philosopher has both of its forks marked held. -/
theorem forks_held_of_eating {N : Nat} {c : Config} {i : Nat} (h2 : 2 ≤ N)
    (hinv : Inv N c) (hi : i < N) (heat : c.sh.states[i]? = some State.EATING) :
    c.sh.forks[leftFork i]? = some false ∧ c.sh.forks[rightFork N i]? = some false := by
  have hj : rightFork N i < N := rightFork_lt (by omega) i
  have hl : ∀ r, r < N → c.sh.forks[r]? ≠ some true → c.sh.forks[r]? = some false := by
    intro r hr h
    have hlen : r < c.sh.forks.length := by rw [hinv.lenF]; exact hr
    rw [List.getElem?_eq_getElem hlen] at h ⊢
    cases hb : c.sh.forks[r] <;> simp_all
  constructor
  · apply hl i hi
    intro h
    exact ((hinv.held i hi).1 h).1 heat
  · apply hl _ hj
    intro h
    have := ((hinv.held _ hj).1 h).2
    rw [leftNeighbour_rightFork h2 hi] at this
    exact this heat

/-- C2, eating implies both forks held: in every reachable state, if
philosopher `i` is `EATING` then `forks[i]` and `forks[(i + 1) % N]` are both
`false`. -/
theorem eating_holds_both_forks (N : Nat) (hN : 5 ≤ N) (c : Config)
    (hc : Reachable N c) (i : Nat) (hi : i < N)
    (heat : c.sh.states[i]? = some State.EATING) :
    c.sh.forks[leftFork i]? = some false ∧ c.sh.forks[rightFork N i]? = some false :=
  forks_held_of_eating (by omega) (inv_of_reachable (by omega) hc) hi heat

theorem eating_holds_both_forks_witness :
    (5 ≤ 5 ∧ Reachable 5 zeroEats ∧ 0 < 5 ∧ zeroEats.sh.states[0]? = some State.EATING) ∧
    zeroEats.sh.forks[leftFork 0]? = some false ∧
      zeroEats.sh.forks[rightFork 5 0]? = some false :=
  ⟨⟨by decide, zeroEats_reachable, by decide, by decide⟩,
    eating_holds_both_forks 5 (by decide) zeroEats zeroEats_reachable 0 (by decide)
      (by decide)⟩

/-- C3, every held fork has exactly one holder: in every reachable state, if
`forks[r]` is `false` then exactly one of philosophers `r` and
`(r - 1) mod N` is `EATING`. -/
theorem held_fork_has_one_holder (N : Nat) (hN : 5 ≤ N) (c : Config)
    (hc : Reachable N c) (r : Nat) (hr : r < N)
    (hheld : c.sh.forks[r]? = some false) :
    (c.sh.states[r]? = some State.EATING ∨
      c.sh.states[(r + N - 1) % N]? = some State.EATING) ∧
    ¬ (c.sh.states[r]? = some State.EATING ∧
      c.sh.states[(r + N - 1) % N]? = some State.EATING) := by
  have hinv := inv_of_reachable (show 2 ≤ N by omega) hc
  have hln : leftNeighbour N r < N := leftNeighbour_lt (by omega) r
  constructor
  · by_contra hno
    have hboth : c.sh.states[r]? ≠ some State.EATING ∧
        c.sh.states[leftNeighbour N r]? ≠ some State.EATING :=
      ⟨fun h => hno (Or.inl h), fun h => hno (Or.inr h)⟩
    have := (hinv.held r hr).2 hboth
    rw [hheld] at this
    cases this
  · intro hboth
    have := hinv.excl (leftNeighbour N r) hln
    rw [rightFork_leftNeighbour (by omega) hr] at this
    exact this ⟨hboth.2, hboth.1⟩

theorem held_fork_has_one_holder_witness :
    (5 ≤ 5 ∧ Reachable 5 zeroEats ∧ 1 < 5 ∧ zeroEats.sh.forks[1]? = some false) ∧
    (zeroEats.sh.states[1]? = some State.EATING ∨
      zeroEats.sh.states[(1 + 5 - 1) % 5]? = some State.EATING) ∧
    ¬ (zeroEats.sh.states[1]? = some State.EATING ∧
      zeroEats.sh.states[(1 + 5 - 1) % 5]? = some State.EATING) :=
  ⟨⟨by decide, zeroEats_reachable, by decide, by decide⟩,
    held_fork_has_one_holder 5 (by decide) zeroEats zeroEats_reachable 1 (by decide)
      (by decide)⟩

/-- C5, elapsed never exceeds duration: in every reachable state and for
every philosopher `i`, `actionElapsed[i] ≤ actionDuration[i]`. -/
theorem elapsed_le_duration (N : Nat) (hN : 5 ≤ N) (c : Config)
    (hc : Reachable N c) (i : Nat) (hi : i < N) :
    ∃ el du, c.sh.actionElapsed[i]? = some el ∧ c.sh.actionDuration[i]? = some du ∧
      el ≤ du := by
  have hinv := inv_of_reachable (show 2 ≤ N by omega) hc
  have hlen : i < c.pcs.length := by rw [hinv.lenP]; exact hi
  have hp := hinv.phase i _ (List.getElem?_eq_getElem hlen)
  cases hpc : c.pcs[i] with
  | start =>
    rw [hpc] at hp
    obtain ⟨_, el, hel, hdu, _⟩ := hp
    exact ⟨el, el, hel, hdu, le_refl el⟩
  | waiting =>
    rw [hpc] at hp
    obtain ⟨_, el, hel, hdu, _⟩ := hp
    exact ⟨el, el, hel, hdu, le_refl el⟩
  | thinking t k => rw [hpc] at hp; exact ⟨k, t, hp.2.1, hp.2.2.1, hp.2.2.2.2.1⟩
  | eating e k => rw [hpc] at hp; exact ⟨k, e, hp.2.1, hp.2.2.1, hp.2.2.2.2.1⟩

theorem elapsed_le_duration_witness :
    (5 ≤ 5 ∧ Reachable 5 oneTwoHungry ∧ 1 < 5) ∧
    ∃ el du, oneTwoHungry.sh.actionElapsed[1]? = some el ∧
      oneTwoHungry.sh.actionDuration[1]? = some du ∧ el ≤ du :=
  ⟨⟨by decide, oneTwoHungry_reachable, by decide⟩,
    elapsed_le_duration 5 (by decide) oneTwoHungry oneTwoHungry_reachable 1 (by decide)⟩

/-! ## Progress -/

/-- A philosopher that is not suspended can always move. -/
theorem step_isSome_of_not_waiting {N : Nat} {c : Config} {id : Nat} {pc : PC}
    (hinv : Inv N c) (hid : id < N) (hpc : c.pcs[id]? = some pc) (hw : pc ≠ PC.waiting) :
    (step c id 2 1).isSome = true := by
  have hidN : id < c.sh.N := by rw [hinv.hN]; exact hid
  unfold step
  rw [if_pos hidN, hpc]
  cases pc with
  | start => rfl
  | waiting => exact absurd rfl hw
  | thinking t k =>
    simp only
    split
    · rfl
    · split <;> rfl
  | eating e k =>
    simp only
    split <;> rfl

/-- A suspended philosopher whose forks are free can move. -/
theorem step_isSome_of_canEat {N : Nat} {c : Config} {id : Nat}
    (hinv : Inv N c) (hid : id < N) (hpc : c.pcs[id]? = some PC.waiting)
    (hcan : canEat c.sh id = true) : (step c id 2 1).isSome = true := by
  have hidN : id < c.sh.N := by rw [hinv.hN]; exact hid
  unfold step
  rw [if_pos hidN, hpc]
  simp only [hcan, if_true]
  rfl

/-- An eating philosopher is in its eating loop, hence not suspended. -/
theorem pc_of_eating {N : Nat} {c : Config} {i : Nat}
    (hinv : Inv N c) (hi : i < N) (heat : c.sh.states[i]? = some State.EATING) :
    ∃ pc, c.pcs[i]? = some pc ∧ pc ≠ PC.waiting := by
  have hlen : i < c.pcs.length := by rw [hinv.lenP]; exact hi
  refine ⟨c.pcs[i], List.getElem?_eq_getElem hlen, ?_⟩
  intro hw
  have hp := hinv.phase i _ (List.getElem?_eq_getElem hlen)
  rw [hw] at hp
  have := hp.1
  rw [heat] at this
  cases this

/-- If `canEat i` fails, a neighbour of `i` or `i` itself is eating. -/
theorem eater_of_not_canEat {N : Nat} {c : Config} {i : Nat}
    (h2 : 2 ≤ N) (hinv : Inv N c) (hi : i < N) (hcan : ¬ canEat c.sh i = true) :
    c.sh.states[i]? = some State.EATING ∨
      c.sh.states[leftNeighbour N i]? = some State.EATING ∨
      c.sh.states[rightFork N i]? = some State.EATING := by
  have hj : rightFork N i < N := rightFork_lt (by omega) i
  by_contra hno
  apply hcan
  rw [canEat_iff, hinv.hN]
  constructor
  · exact (hinv.held i hi).2 ⟨fun h => hno (Or.inl h), fun h => hno (Or.inr (Or.inl h))⟩
  · apply (hinv.held _ hj).2
    rw [leftNeighbour_rightFork h2 hi]
    exact ⟨fun h => hno (Or.inr (Or.inr h)), fun h => hno (Or.inl h)⟩

/-- C4, no total deadlock: in every reachable state some philosopher has an
enabled step; in particular the philosophers are never all `HUNGRY` with
`canEat` false for each of them. -/
theorem no_total_deadlock (N : Nat) (hN : 5 ≤ N) (c : Config) (hc : Reachable N c) :
    (∃ id t e, id < N ∧ thinkTime t ∧ eatTime e ∧ (step c id t e).isSome = true) ∧
    ¬ (∀ i, i < N → c.sh.states[i]? = some State.HUNGRY ∧ canEat c.sh i = false) := by
  have h2 : 2 ≤ N := by omega
  have h0 : 0 < N := by omega
  have hinv := inv_of_reachable h2 hc
  have hlen : 0 < c.pcs.length := by rw [hinv.lenP]; exact h0
  have hpc0 : c.pcs[0]? = some c.pcs[0] := List.getElem?_eq_getElem hlen
  have ht : thinkTime 2 := by decide
  have he : eatTime 1 := by decide
  have hmove : ∀ i, i < N → c.sh.states[i]? = some State.EATING →
      ∃ id t e, id < N ∧ thinkTime t ∧ eatTime e ∧ (step c id t e).isSome = true := by
    intro i hi heat
    obtain ⟨pc, hpc, hw⟩ := pc_of_eating hinv hi heat
    exact ⟨i, 2, 1, hi, ht, he, step_isSome_of_not_waiting hinv hi hpc hw⟩
  constructor
  · by_cases hw : c.pcs[0] = PC.waiting
    · by_cases hcan : canEat c.sh 0 = true
      · rw [hw] at hpc0
        exact ⟨0, 2, 1, h0, ht, he, step_isSome_of_canEat hinv h0 hpc0 hcan⟩
      · rcases eater_of_not_canEat h2 hinv h0 hcan with h | h | h
        · exact hmove 0 h0 h
        · exact hmove _ (leftNeighbour_lt h0 0) h
        · exact hmove _ (rightFork_lt h0 0) h
    · exact ⟨0, 2, 1, h0, ht, he, step_isSome_of_not_waiting hinv h0 hpc0 hw⟩
  · intro hall
    have hcan : ¬ canEat c.sh 0 = true := by
      rw [(hall 0 h0).2]; decide
    have hne : ∀ i, i < N → c.sh.states[i]? ≠ some State.EATING := by
      intro i hi h
      rw [(hall i hi).1] at h
      cases h
    rcases eater_of_not_canEat h2 hinv h0 hcan with h | h | h
    · exact hne 0 h0 h
    · exact hne _ (leftNeighbour_lt h0 0) h
    · exact hne _ (rightFork_lt h0 0) h

theorem no_total_deadlock_witness :
    (5 ≤ 5 ∧ Reachable 5 oneTwoHungry) ∧
    (∃ id t e, id < 5 ∧ thinkTime t ∧ eatTime e ∧
      (step oneTwoHungry id t e).isSome = true) ∧
    ¬ (∀ i, i < 5 → oneTwoHungry.sh.states[i]? = some State.HUNGRY ∧
      canEat oneTwoHungry.sh i = false) :=
  ⟨⟨by decide, oneTwoHungry_reachable⟩,
    no_total_deadlock 5 (by decide) oneTwoHungry oneTwoHungry_reachable⟩

/-! ## Contended acquisition -/

theorem step_lt {c c1 : Config} {id : Nat} {t e : Int} (h : step c id t e = some c1) :
    id < c.sh.N := by
  unfold step at h
  split at h
  · assumption
  · cases h

/-- A step of `id` leaves the control state of the others alone, and every
fork that is not one of its own. -/
theorem step_frame {c c1 : Config} {id : Nat} {t e : Int} (h : step c id t e = some c1) :
    (∀ m, m ≠ id → c1.pcs[m]? = c.pcs[m]?) ∧
    (∀ r, r ≠ id → r ≠ rightFork c.sh.N id → c1.sh.forks[r]? = c.sh.forks[r]?) := by
  unfold step at h
  split at h
  · split at h
    · cases h
    · cases h
      exact ⟨fun m hm => List.getElem?_set_ne (Ne.symm hm), fun r _ _ => rfl⟩
    · split at h
      · cases h
        exact ⟨fun m hm => List.getElem?_set_ne (Ne.symm hm), fun r _ _ => rfl⟩
      · split at h
        · cases h
          refine ⟨fun m hm => List.getElem?_set_ne (Ne.symm hm), fun r h1 h3 => ?_⟩
          simp only [takeForks, becomeHungry, leftFork]
          rw [List.getElem?_set_ne (Ne.symm h3), List.getElem?_set_ne (Ne.symm h1)]
        · cases h
          exact ⟨fun m hm => List.getElem?_set_ne (Ne.symm hm), fun r _ _ => rfl⟩
    · split at h
      · cases h
        refine ⟨fun m hm => List.getElem?_set_ne (Ne.symm hm), fun r h1 h3 => ?_⟩
        simp only [takeForks, leftFork]
        rw [List.getElem?_set_ne (Ne.symm h3), List.getElem?_set_ne (Ne.symm h1)]
      · cases h
    · split at h
      · cases h
        exact ⟨fun m hm => List.getElem?_set_ne (Ne.symm hm), fun r _ _ => rfl⟩
      · cases h
        refine ⟨fun m hm => List.getElem?_set_ne (Ne.symm hm), fun r h1 h3 => ?_⟩
        simp only [putForks, leftFork]
        rw [List.getElem?_set_ne (Ne.symm h3), List.getElem?_set_ne (Ne.symm h1)]
  · cases h

/-- A tick of the eating loop keeps the philosopher in the loop and does not
touch the forks. -/
theorem step_eating_tick {c c1 : Config} {id : Nat} {t e e0 k : Int}
    (hpc : c.pcs[id]? = some (PC.eating e0 k)) (hk : k < e0)
    (h : step c id t e = some c1) :
    c1.pcs[id]? = some (PC.eating e0 (k + 1)) ∧ c1.sh.forks = c.sh.forks := by
  have hlen : id < c.pcs.length := by
    rcases List.getElem?_eq_some.1 hpc with ⟨hl, _⟩
    exact hl
  unfold step at h
  rw [if_pos (step_lt h), hpc] at h
  simp only [hk, if_true] at h
  cases h
  exact ⟨List.getElem?_set_self hlen, rfl⟩

/-- A suspended philosopher whose predicate is false cannot move. -/
theorem step_waiting_none {c : Config} {id : Nat} (t e : Int)
    (hpc : c.pcs[id]? = some PC.waiting) (hcan : canEat c.sh id = false) :
    step c id t e = none := by
  unfold step
  split
  · rw [hpc]; simp [hcan]
  · rfl

theorem canEat_false_of_held {s : Shared} {b x : Nat}
    (hx : x = b ∨ x = rightFork s.N b) (hfx : s.forks[x]? = some false) :
    canEat s b = false := by
  cases hcan : canEat s b
  · rfl
  · rw [canEat_iff] at hcan
    rcases hx with h | h
    · subst h; rw [hfx] at hcan; exact absurd hcan.1 (by simp)
    · rw [← h, hfx] at hcan; exact absurd hcan.2 (by simp)

/-- While `a` sits in its eating loop holding fork `x`, a suspended `b` that
needs `x` stays suspended, provided only `a` and `b` use `x`. -/
theorem held_off {N : Nat} (h2 : 2 ≤ N) {a b x : Nat} (hab : a ≠ b)
    (hx : x = b ∨ x = rightFork N b)
    (hxa : ∀ id, id < N → id ≠ a → id ≠ b → x ≠ id ∧ x ≠ rightFork N id)
    {c1 c2 : Config} (hrun : RunsBeforePut a c1 c2)
    (hr : Reachable N c1)
    (hpa : ∃ e0 k, c1.pcs[a]? = some (PC.eating e0 k))
    (hpb : c1.pcs[b]? = some PC.waiting)
    (hfx : c1.sh.forks[x]? = some false) :
    Reachable N c2 ∧ (∃ e0 k, c2.pcs[a]? = some (PC.eating e0 k)) ∧
      c2.pcs[b]? = some PC.waiting ∧ c2.sh.forks[x]? = some false := by
  induction hrun with
  | refl => exact ⟨hr, hpa, hpb, hfx⟩
  | step id t e _ ht he hnp hstep ih =>
    obtain ⟨hrm, ⟨e0, k, hpam⟩, hpbm, hfxm⟩ := ih
    have hinv := inv_of_reachable h2 hrm
    have hNm := hinv.hN
    have hidN : id < N := by rw [← hNm]; exact step_lt hstep
    obtain ⟨hfp, hff⟩ := step_frame hstep
    rw [hNm] at hff
    refine ⟨Reachable.step id t e hrm ht he hstep, ?_⟩
    by_cases hb : id = b
    · subst hb
      have hcan : canEat _ id = false := canEat_false_of_held (by rw [hNm]; exact hx) hfxm
      rw [step_waiting_none t e hpbm hcan] at hstep
      cases hstep
    · by_cases ha : id = a
      · subst ha
        have hk : k < e0 := by
          by_contra hk
          apply hnp
          refine ⟨rfl, ?_⟩
          simp [isPut, hpam, hk]
        obtain ⟨hpc, hfk⟩ := step_eating_tick hpam hk hstep
        refine ⟨⟨e0, k + 1, hpc⟩, ?_, ?_⟩
        · rw [hfp b (Ne.symm hab)]; exact hpbm
        · rw [hfk]; exact hfxm
      · obtain ⟨hx1, hx2⟩ := hxa id hidN ha hb
        refine ⟨⟨e0, k, ?_⟩, ?_, ?_⟩
        · rw [hfp a (Ne.symm ha)]; exact hpam
        · rw [hfp b (Ne.symm hb)]; exact hpbm
        · rw [hff x hx1 hx2]; exact hfxm

/-- A hungry philosopher is suspended in `cv.wait`. -/
theorem pc_of_hungry {N : Nat} {c : Config} {i : Nat}
    (hinv : Inv N c) (hi : i < N) (hh : c.sh.states[i]? = some State.HUNGRY) :
    c.pcs[i]? = some PC.waiting := by
  have hlen : i < c.pcs.length := by rw [hinv.lenP]; exact hi
  have hget : c.pcs[i]? = some c.pcs[i] := List.getElem?_eq_getElem hlen
  have hp := hinv.phase i _ hget
  cases hpc : c.pcs[i] with
  | waiting => rw [hget, hpc]
  | start => rw [hpc] at hp; have := hp.1; rw [hh] at this; cases this
  | thinking t k => rw [hpc] at hp; have := hp.1; rw [hh] at this; cases this
  | eating e k => rw [hpc] at hp; have := hp.1; rw [hh] at this; cases this

/-- If hungry `a` can eat it may take its forks, and from then on a hungry
`b` that shares fork `x` with it is held off until `a` puts the forks back. -/
theorem take_holds_off {N : Nat} (h2 : 2 ≤ N) {a b x : Nat}
    (ha : a < N) (hb : b < N) (hab : a ≠ b)
    (hxa : x = leftFork a ∨ x = rightFork N a)
    (hxb : x = b ∨ x = rightFork N b)
    (honly : ∀ id, id < N → id ≠ a → id ≠ b → x ≠ id ∧ x ≠ rightFork N id)
    {c : Config} (hc : Reachable N c)
    (hha : c.sh.states[a]? = some State.HUNGRY)
    (hhb : c.sh.states[b]? = some State.HUNGRY)
    (hcan : canEat c.sh a = true)
    (t e : Int) (ht : thinkTime t) (he : eatTime e) :
    ∃ c1, step c a t e = some c1 ∧
      c1.sh.states[a]? = some State.EATING ∧
      c1.sh.forks[leftFork a]? = some false ∧
      c1.sh.forks[rightFork N a]? = some false ∧
      ∀ c2, RunsBeforePut a c1 c2 →
        c2.sh.states[a]? = some State.EATING ∧
        c2.sh.states[b]? = some State.HUNGRY ∧
        canEat c2.sh b = false ∧
        ∀ t2 e2, step c2 b t2 e2 = none := by
  have hinv := inv_of_reachable h2 hc
  have hpa := pc_of_hungry hinv ha hha
  have hpb := pc_of_hungry hinv hb hhb
  have haN : a < c.sh.N := by rw [hinv.hN]; exact ha
  have hstep : step c a t e = some ⟨takeForks c.sh a e, c.pcs.set a (PC.eating e 0)⟩ := by
    unfold step
    rw [if_pos haN, hpa]
    simp [hcan]
  refine ⟨_, hstep, ?_⟩
  have hc1 := Reachable.step a t e hc ht he hstep
  have hinv1 := inv_of_reachable h2 hc1
  have hpa1 : (c.pcs.set a (PC.eating e 0))[a]? = some (PC.eating e 0) :=
    List.getElem?_set_self (by rw [hinv.lenP]; exact ha)
  have hpb1 : (c.pcs.set a (PC.eating e 0))[b]? = some PC.waiting := by
    rw [List.getElem?_set_ne hab]; exact hpb
  have heat1 := (hinv1.phase a _ hpa1).1
  have hheld1 := forks_held_of_eating h2 hinv1 ha heat1
  have hfx1 : (takeForks c.sh a e).forks[x]? = some false := by
    rcases hxa with h | h
    · rw [h]; exact hheld1.1
    · rw [h]; exact hheld1.2
  refine ⟨heat1, hheld1.1, hheld1.2, ?_⟩
  intro c2 hrun
  obtain ⟨hc2, ⟨e0, k, hpa2⟩, hpb2, hfx2⟩ :=
    held_off h2 hab hxb honly hrun hc1 ⟨e, 0, hpa1⟩ hpb1 hfx1
  have hinv2 := inv_of_reachable h2 hc2
  have hcan2 : canEat c2.sh b = false :=
    canEat_false_of_held (by rw [hinv2.hN]; exact hxb) hfx2
  exact ⟨(hinv2.phase a _ hpa2).1, (hinv2.phase b _ hpb2).1, hcan2,
    fun t2 e2 => step_waiting_none t2 e2 hpb2 hcan2⟩

theorem rightFork_rightFork (N i : Nat) : rightFork N (rightFork N i) = (i + 2) % N := by
  unfold rightFork
  rw [Nat.mod_add_mod]

theorem rightFork_injective {N i k : Nat} (h2 : 2 ≤ N) (hi : i < N) (hk : k < N)
    (h : rightFork N i = rightFork N k) : i = k := by
  rw [← leftNeighbour_rightFork h2 hi, h, leftNeighbour_rightFork h2 hk]

/-- C10, contended acquisition: from a reachable state in which `i` and
`(i + 1) % N` are both `HUNGRY` and forks `i`, `(i + 1) % N`, `(i + 2) % N` are
free, either of the two may take its forks; the one that does is `EATING` with
both forks held, and in every later state before it puts them back the other
is still `HUNGRY`, has `canEat` false and cannot move. -/
theorem contended_acquisition (N : Nat) (hN : 5 ≤ N) (c : Config) (hc : Reachable N c)
    (i : Nat) (hi : i < N)
    (hhi : c.sh.states[i]? = some State.HUNGRY)
    (hhj : c.sh.states[(i + 1) % N]? = some State.HUNGRY)
    (hf0 : c.sh.forks[i]? = some true)
    (hf1 : c.sh.forks[(i + 1) % N]? = some true)
    (hf2 : c.sh.forks[(i + 2) % N]? = some true)
    (t e : Int) (ht : thinkTime t) (he : eatTime e) :
    (∃ c1, step c i t e = some c1 ∧
      c1.sh.states[i]? = some State.EATING ∧
      c1.sh.forks[leftFork i]? = some false ∧
      c1.sh.forks[rightFork N i]? = some false ∧
      ∀ c2, RunsBeforePut i c1 c2 →
        c2.sh.states[i]? = some State.EATING ∧
        c2.sh.states[(i + 1) % N]? = some State.HUNGRY ∧
        canEat c2.sh ((i + 1) % N) = false ∧
        ∀ t2 e2, step c2 ((i + 1) % N) t2 e2 = none) ∧
    (∃ c1, step c ((i + 1) % N) t e = some c1 ∧
      c1.sh.states[(i + 1) % N]? = some State.EATING ∧
      c1.sh.forks[leftFork ((i + 1) % N)]? = some false ∧
      c1.sh.forks[rightFork N ((i + 1) % N)]? = some false ∧
      ∀ c2, RunsBeforePut ((i + 1) % N) c1 c2 →
        c2.sh.states[(i + 1) % N]? = some State.EATING ∧
        c2.sh.states[i]? = some State.HUNGRY ∧
        canEat c2.sh i = false ∧
        ∀ t2 e2, step c2 i t2 e2 = none) := by
  have h2 : 2 ≤ N := by omega
  have hinv := inv_of_reachable h2 hc
  change c.sh.states[rightFork N i]? = some State.HUNGRY at hhj
  change c.sh.forks[rightFork N i]? = some true at hf1
  rw [← rightFork_rightFork] at hf2
  show (∃ c1, step c i t e = some c1 ∧ _ ∧ _ ∧ _ ∧
      ∀ c2, RunsBeforePut i c1 c2 → _ ∧ c2.sh.states[rightFork N i]? = _ ∧
        canEat c2.sh (rightFork N i) = false ∧
        ∀ t2 e2, step c2 (rightFork N i) t2 e2 = none) ∧
    (∃ c1, step c (rightFork N i) t e = some c1 ∧
      c1.sh.states[rightFork N i]? = _ ∧
      c1.sh.forks[leftFork (rightFork N i)]? = _ ∧
      c1.sh.forks[rightFork N (rightFork N i)]? = _ ∧
      ∀ c2, RunsBeforePut (rightFork N i) c1 c2 →
        c2.sh.states[rightFork N i]? = _ ∧ _ ∧ _ ∧ _)
  have hj : rightFork N i < N := rightFork_lt (by omega) i
  have hne : rightFork N i ≠ i := rightFork_ne h2 hi
  have honly : ∀ id, id < N → id ≠ i → id ≠ rightFork N i →
      rightFork N i ≠ id ∧ rightFork N i ≠ rightFork N id :=
    fun id hid h1 h3 => ⟨Ne.symm h3, fun h => h1 (rightFork_injective h2 hi hid h).symm⟩
  constructor
  · apply take_holds_off h2 hi hj (Ne.symm hne) (Or.inr rfl) (Or.inl rfl) honly hc hhi hhj
      _ t e ht he
    rw [canEat_iff, hinv.hN]
    exact ⟨hf0, hf1⟩
  · apply take_holds_off h2 hj hi hne (Or.inl rfl) (Or.inr rfl)
      (fun id hid h1 h3 => honly id hid h3 h1) hc hhj hhi _ t e ht he
    rw [canEat_iff, hinv.hN]
    exact ⟨hf1, hf2⟩

theorem contended_acquisition_witness :
    (5 ≤ 5 ∧ Reachable 5 oneTwoHungry ∧ 1 < 5 ∧
      oneTwoHungry.sh.states[1]? = some State.HUNGRY ∧
      oneTwoHungry.sh.states[(1 + 1) % 5]? = some State.HUNGRY ∧
      oneTwoHungry.sh.forks[1]? = some true ∧
      oneTwoHungry.sh.forks[(1 + 1) % 5]? = some true ∧
      oneTwoHungry.sh.forks[(1 + 2) % 5]? = some true ∧
      thinkTime 2 ∧ eatTime 3) ∧
    ((∃ c1, step oneTwoHungry 1 2 3 = some c1 ∧
      c1.sh.states[1]? = some State.EATING ∧
      c1.sh.forks[leftFork 1]? = some false ∧
      c1.sh.forks[rightFork 5 1]? = some false ∧
      ∀ c2, RunsBeforePut 1 c1 c2 →
        c2.sh.states[1]? = some State.EATING ∧
        c2.sh.states[(1 + 1) % 5]? = some State.HUNGRY ∧
        canEat c2.sh ((1 + 1) % 5) = false ∧
        ∀ t2 e2, step c2 ((1 + 1) % 5) t2 e2 = none) ∧
    (∃ c1, step oneTwoHungry ((1 + 1) % 5) 2 3 = some c1 ∧
      c1.sh.states[(1 + 1) % 5]? = some State.EATING ∧
      c1.sh.forks[leftFork ((1 + 1) % 5)]? = some false ∧
      c1.sh.forks[rightFork 5 ((1 + 1) % 5)]? = some false ∧
      ∀ c2, RunsBeforePut ((1 + 1) % 5) c1 c2 →
        c2.sh.states[(1 + 1) % 5]? = some State.EATING ∧
        c2.sh.states[1]? = some State.HUNGRY ∧
        canEat c2.sh 1 = false ∧
        ∀ t2 e2, step c2 1 t2 e2 = none)) :=
  ⟨⟨by decide, oneTwoHungry_reachable, by decide, by decide, by decide, by decide, by decide,
      by decide, by decide, by decide⟩,
    contended_acquisition 5 (by decide) oneTwoHungry oneTwoHungry_reachable 1 (by decide)
      (by decide) (by decide) (by decide) (by decide) (by decide) 2 3 (by decide) (by decide)⟩

/-! ## Ticks -/

theorem tickN_fields (k : Nat) (s : Shared) (id : Nat) :
    (tickN k s id).N = s.N ∧ (tickN k s id).states = s.states ∧
      (tickN k s id).forks = s.forks ∧
      (tickN k s id).actionDuration = s.actionDuration := by
  induction k generalizing s with
  | zero => exact ⟨rfl, rfl, rfl, rfl⟩
  | succ k ih => exact ih (tick s id)

theorem set_back_eq {l : List Bool} {i j : Nat}
    (hi : l[i]? = some true) (hj : l[j]? = some true) :
    (((l.set i false).set j false).set i true).set j true = l := by
  have hil : i < l.length := by
    rcases List.getElem?_eq_some.1 hi with ⟨h, _⟩
    exact h
  have hjl : j < l.length := by
    rcases List.getElem?_eq_some.1 hj with ⟨h, _⟩
    exact h
  apply List.ext_getElem?
  intro n
  by_cases h1 : j = n
  · subst h1
    simp [List.getElem?_set, hjl, hj]
  · by_cases h3 : i = n
    · subst h3
      simp [List.getElem?_set, hil, hi, h1]
    · simp [List.getElem?_set, h1, h3]

/-- C9, acquire/release round trip: for every agent `id` of a state in which
`canEat(id)` holds, taking the forks, ticking any number of times and putting
the forks back gives back the forks vector of before and leaves
`states[id] = THINKING`.  No bound on `N` is needed, so this covers `N ≥ 5`. -/
theorem take_then_put_restores_forks (s : Shared) (id : Nat) (e : Int) (k : Nat)
    (hlen : s.states.length = s.N) (hid : id < s.N) (hcan : canEat s id = true) :
    (putForks (tickN k (takeForks s id e) id) id).forks = s.forks ∧
    (putForks (tickN k (takeForks s id e) id) id).states[id]? = some State.THINKING := by
  obtain ⟨hn, hs, hf, _⟩ := tickN_fields k (takeForks s id e) id
  rw [canEat_iff] at hcan
  constructor
  · simp only [putForks]
    rw [hf, hn]
    exact set_back_eq hcan.1 hcan.2
  · simp only [putForks]
    rw [hs]
    exact List.getElem?_set_self (by simp [takeForks, hlen, hid])

theorem take_then_put_restores_forks_witness :
    (oneTwoHungry.sh.states.length = oneTwoHungry.sh.N ∧ 1 < oneTwoHungry.sh.N ∧
      canEat oneTwoHungry.sh 1 = true) ∧
    (putForks (tickN 3 (takeForks oneTwoHungry.sh 1 3) 1) 1).forks = oneTwoHungry.sh.forks ∧
    (putForks (tickN 3 (takeForks oneTwoHungry.sh 1 3) 1) 1).states[1]?
      = some State.THINKING :=
  ⟨⟨by decide, by decide, by decide⟩,
    take_then_put_restores_forks oneTwoHungry.sh 1 3 3 (by decide) (by decide) (by decide)⟩

/-! ## Start-up -/

/-- Without an argument `main` reports it and returns 1. -/
theorem main_missing_argument (argv : List String) (h : argv.length < 2) :
    main argv = Outcome.returned 1 "Podaj liczbe filozofow (>= 5)\n" := by
  unfold main
  rw [if_pos h]

/-- A parsed value below 5 is reported and `main` returns 1. -/
theorem main_too_few (argv : List String) (n : Int) (h : 2 ≤ argv.length)
    (hp : stoi (argv.getD 1 "") = Parsed.value n) (hn : n < 5) :
    main argv = Outcome.returned 1 "Liczba filozofow musi byc >= 5\n" := by
  unfold main
  rw [if_neg (by omega), hp]
  simp only [hn, if_true]

/-- A parsed value of at least 5 starts the simulation. -/
theorem main_starts (argv : List String) (n : Int) (h : 2 ≤ argv.length)
    (hp : stoi (argv.getD 1 "") = Parsed.value n) (hn : 5 ≤ n) :
    main argv = Outcome.started (initConfig n.toNat) := by
  unfold main
  rw [if_neg (by omega), hp]
  simp only [show ¬ n < 5 by omega, if_false]

/-- C7 at the arguments `abc` and `99999999999`: `std::stoi` throws
(`std::invalid_argument`, `std::out_of_range`), nothing in `main` catches it,
so `main` does not return at all, with status 1 or any other. -/
theorem main_non_numeric_is_uncaught :
    (main ["philosophers", "abc"] = Outcome.uncaught StoiError.invalid_argument ∧
      ∀ status msg, main ["philosophers", "abc"] ≠ Outcome.returned status msg) ∧
    (main ["philosophers", "99999999999"] = Outcome.uncaught StoiError.out_of_range ∧
      ∀ status msg, main ["philosophers", "99999999999"] ≠ Outcome.returned status msg) := by
  have h1 : main ["philosophers", "abc"] = Outcome.uncaught StoiError.invalid_argument := by
    decide
  have h3 : main ["philosophers", "99999999999"]
      = Outcome.uncaught StoiError.out_of_range := by
    decide
  refine ⟨⟨h1, ?_⟩, ⟨h3, ?_⟩⟩
  · intro status msg h
    rw [h1] at h
    cases h
  · intro status msg h
    rw [h3] at h
    cases h

theorem initShared_entries (N : Nat) :
    (initShared N).N = N ∧
    (initShared N).states.length = N ∧ (initShared N).forks.length = N ∧
    (initShared N).actionDuration.length = N ∧ (initShared N).actionElapsed.length = N ∧
    ∀ i, i < N →
      (initShared N).states[i]? = some State.THINKING ∧
      (initShared N).forks[i]? = some true ∧
      (initShared N).actionDuration[i]? = some 0 ∧
      (initShared N).actionElapsed[i]? = some 0 := by
  refine ⟨rfl, ?_, ?_, ?_, ?_, ?_⟩
  · simp [initShared, resize_nil]
  · simp [initShared, resize_nil]
  · simp [initShared, resize_nil]
  · simp [initShared, resize_nil]
  · intro i hi
    simp [initShared, resize_nil, List.getElem?_replicate, hi]

/-- C8, initial state: when the argument parses to `N ≥ 5`, `main` gets past
validation and lines 169-172 leave four vectors of length exactly `N` in which
every philosopher is `THINKING`, every fork is free and every duration and
elapsed counter is 0. -/
theorem initial_state (argv : List String) (n : Int) (hargc : 2 ≤ argv.length)
    (hparse : stoi (argv.getD 1 "") = Parsed.value n) (hn : 5 ≤ n) :
    ∃ c, main argv = Outcome.started c ∧ (c.sh.N : Int) = n ∧
      c.sh.states.length = c.sh.N ∧ c.sh.forks.length = c.sh.N ∧
      c.sh.actionDuration.length = c.sh.N ∧ c.sh.actionElapsed.length = c.sh.N ∧
      ∀ i, i < c.sh.N →
        c.sh.states[i]? = some State.THINKING ∧
        c.sh.forks[i]? = some true ∧
        c.sh.actionDuration[i]? = some 0 ∧
        c.sh.actionElapsed[i]? = some 0 := by
  obtain ⟨_, h1, h3, h4, h5, h6⟩ := initShared_entries n.toNat
  refine ⟨initConfig n.toNat, main_starts argv n hargc hparse hn, ?_, h1, h3, h4, h5, h6⟩
  show ((n.toNat : Nat) : Int) = n
  omega

theorem initial_state_witness :
    (2 ≤ ["philosophers", "5"].length ∧
      stoi (["philosophers", "5"].getD 1 "") = Parsed.value 5 ∧ (5 : Int) ≤ 5) ∧
    ∃ c, main ["philosophers", "5"] = Outcome.started c ∧ (c.sh.N : Int) = 5 ∧
      c.sh.states.length = c.sh.N ∧ c.sh.forks.length = c.sh.N ∧
      c.sh.actionDuration.length = c.sh.N ∧ c.sh.actionElapsed.length = c.sh.N ∧
      ∀ i, i < c.sh.N →
        c.sh.states[i]? = some State.THINKING ∧
        c.sh.forks[i]? = some true ∧
        c.sh.actionDuration[i]? = some 0 ∧
        c.sh.actionElapsed[i]? = some 0 :=
  ⟨⟨by decide, by decide, by decide⟩,
    initial_state ["philosophers", "5"] 5 (by decide) (by decide) (by decide)⟩

end Philosophers
